import Mathlib

/-!
Verification development for the rubicon metadata-logging library.

The repository's distributed sources here are its example notebooks and
documentation; the core implementation (identity scheme, record codec,
storage backends, repository, entity clients) is described by the design
spec.  Each definition below is therefore modelled from the spec, and the
theorems settle the spec's testable properties against that model.

Machine-level conventions of the shallow embedding:
* bytes are natural numbers (`Nat`), with encoders emitting values `< 256`;
* opaque floating-point payloads are carried as their bit patterns (`Nat`);
* fallible operations return `Except RubiconError`;
* the storage backend is an association list from paths (segment lists)
  to stored entity records.
-/

namespace Rubicon

/-! ## Variable-length natural-number encoding

The record codec's primitive: a base-128 continuation-bit encoding of a
natural number, used for tags, lengths, code points and blob bytes.
Modelled from the spec: the Record Codec (§4.3, §6) chooses a
"self-describing structured byte encoding (e.g., length-prefixed field
map)"; varints are the length/scalar leaves of that encoding. -/

/-- Encode a natural number in base-128, least-significant group first;
every byte except the last carries a continuation bit (value `≥ 128`). -/
def encVarint (n : Nat) : List Nat :=
  if n < 128 then [n] else (n % 128 + 128) :: encVarint (n / 128)
termination_by n
decreasing_by
  exact Nat.div_lt_self (by omega) (by omega)

/-- Decode a varint off the front of a byte list, returning the value and
the unconsumed tail. -/
def decVarint : List Nat → Option (Nat × List Nat)
  | [] => none
  | b :: rest =>
    if b < 128 then some (b, rest)
    else
      match decVarint rest with
      | some (m, r) => some (m * 128 + (b - 128), r)
      | none => none

theorem decVarint_encVarint (n : Nat) (rest : List Nat) :
    decVarint (encVarint n ++ rest) = some (n, rest) := by
  induction n using Nat.strong_induction_on with
  | _ n ih =>
    rw [encVarint]
    by_cases h : n < 128
    · simp [h, decVarint]
    · have hd : n / 128 < n := Nat.div_lt_self (by omega) (by omega)
      simp only [if_neg h, List.cons_append, decVarint]
      have hb : ¬ (n % 128 + 128 < 128) := by omega
      simp only [if_neg hb, ih (n / 128) hd]
      have hmod : n / 128 * 128 + (n % 128 + 128 - 128) = n := by omega
      simp only [Nat.add_sub_cancel] at hmod ⊢
      simp [hmod]

/-- Every byte emitted by `encVarint` is a byte (`< 256`). -/
theorem encVarint_lt (n : Nat) : ∀ b ∈ encVarint n, b < 256 := by
  induction n using Nat.strong_induction_on with
  | _ n ih =>
    rw [encVarint]
    by_cases h : n < 128
    · simp only [if_pos h, List.mem_singleton]
      omega
    · simp only [if_neg h, List.mem_cons]
      rintro b (rfl | hb)
      · omega
      · exact ih (n / 128) (Nat.div_lt_self (by omega) (by omega)) b hb

/-- A varint occupies at least one byte. -/
theorem encVarint_length_pos (n : Nat) : 0 < (encVarint n).length := by
  rw [encVarint]
  by_cases h : n < 128 <;> simp [h]

/-! ## Record values

Modelled from the spec (§9): dynamic payload values are "a tagged union
over {integer, float, string, boolean, byte-blob, nested-tuple-of-same}".
A float is opaque to the system and is carried as its bit pattern. -/

mutual

/-- A dynamically-typed record value: the tagged union of §9. -/
inductive Value where
  | vint : Int → Value
  | vfloat : Nat → Value
  | vstr : String → Value
  | vbool : Bool → Value
  | vblob : List Nat → Value
  | vtuple : ValueTuple → Value
  deriving DecidableEq, Repr

/-- A nested tuple of values. -/
inductive ValueTuple where
  | nil : ValueTuple
  | cons : Value → ValueTuple → ValueTuple
  deriving DecidableEq, Repr

end

/-- Number of components of a tuple. -/
def ValueTuple.size : ValueTuple → Nat
  | .nil => 0
  | .cons _ vs => vs.size + 1

mutual

/-- Tuple-nesting depth of a value: the decoder fuel it needs. -/
def Value.depth : Value → Nat
  | .vtuple vs => vs.depth + 1
  | _ => 1

/-- Depth of the deepest component of a tuple. -/
def ValueTuple.depth : ValueTuple → Nat
  | .nil => 1
  | .cons v vs => max v.depth vs.depth

end

/-! ## The record codec

Modelled from the spec (§4.3, §6): serializes a record (a mapping of
named fields to values) to a byte sequence and back; decoding is
all-or-nothing, and field-name-to-value correspondence round-trips
exactly.  Layout: every value is a tag byte followed by a
length-prefixed payload; strings are code-point sequences; records are
count-prefixed lists of (name, value) pairs. -/

/-- Encode a list of naturals: a varint count followed by each entry as a
varint. -/
def encNatSeq (ns : List Nat) : List Nat :=
  encVarint ns.length ++ ns.flatMap encVarint

/-- Decode exactly `k` varints. -/
def decVarints : Nat → List Nat → Option (List Nat × List Nat)
  | 0, bs => some ([], bs)
  | k + 1, bs =>
    match decVarint bs with
    | some (n, r) =>
      match decVarints k r with
      | some (ns, r') => some (n :: ns, r')
      | none => none
    | none => none

/-- Decode a count-prefixed list of naturals. -/
def decNatSeq (bs : List Nat) : Option (List Nat × List Nat) :=
  match decVarint bs with
  | some (k, r) => decVarints k r
  | none => none

theorem decVarints_append (ns : List Nat) (rest : List Nat) :
    decVarints ns.length (ns.flatMap encVarint ++ rest) = some (ns, rest) := by
  induction ns with
  | nil => simp [decVarints]
  | cons n ns ih =>
    simp only [List.flatMap_cons, List.length_cons, List.append_assoc, decVarints,
      decVarint_encVarint, ih]

theorem decNatSeq_encNatSeq (ns : List Nat) (rest : List Nat) :
    decNatSeq (encNatSeq ns ++ rest) = some (ns, rest) := by
  simp only [encNatSeq, decNatSeq, List.append_assoc, decVarint_encVarint]
  exact decVarints_append ns rest

/-- Encode a string as the count-prefixed sequence of its code points. -/
def encString (s : String) : List Nat :=
  encNatSeq (s.data.map Char.toNat)

/-- Decode a string: read the code-point sequence and rebuild the characters. -/
def decString (bs : List Nat) : Option (String × List Nat) :=
  match decNatSeq bs with
  | some (ns, r) => some (String.mk (ns.map Char.ofNat), r)
  | none => none

theorem decString_encString (s : String) (rest : List Nat) :
    decString (encString s ++ rest) = some (s, rest) := by
  simp only [encString, decString, decNatSeq_encNatSeq, List.map_map]
  have h : s.data.map (Char.ofNat ∘ Char.toNat) = s.data := by
    rw [show Char.ofNat ∘ Char.toNat = id from funext fun c => Char.ofNat_toNat c]
    exact List.map_id s.data
  rw [h]

mutual

/-- Encode a value: a tag byte (0 = int, 1 = float, 2 = string, 3 = bool,
4 = blob, 5 = tuple) followed by the tagged payload. -/
def encodeVal : Value → List Nat
  | .vint i => 0 :: (if i < 0 then 1 else 0) :: encVarint i.natAbs
  | .vfloat bits => 1 :: encVarint bits
  | .vstr s => 2 :: encString s
  | .vbool b => 3 :: [if b then 1 else 0]
  | .vblob bs => 4 :: encNatSeq bs
  | .vtuple vs => 5 :: (encVarint vs.size ++ encodeTuple vs)

/-- Encode the components of a tuple in order. -/
def encodeTuple : ValueTuple → List Nat
  | .nil => []
  | .cons v vs => encodeVal v ++ encodeTuple vs

end

mutual

/-- Decode one value off the front of a byte list.  `fuel` bounds the
tuple-nesting depth; it only shrinks when entering a nested tuple. -/
def decodeVal : Nat → List Nat → Option (Value × List Nat)
  | 0, _ => none
  | _ + 1, [] => none
  | fuel + 1, t :: bs =>
    if t = 0 then
      match bs with
      | [] => none
      | sg :: bs' =>
        match decVarint bs' with
        | some (m, r) => some (.vint (if sg = 1 then -(m : Int) else (m : Int)), r)
        | none => none
    else if t = 1 then
      match decVarint bs with
      | some (m, r) => some (.vfloat m, r)
      | none => none
    else if t = 2 then
      match decString bs with
      | some (s, r) => some (.vstr s, r)
      | none => none
    else if t = 3 then
      match bs with
      | [] => none
      | b :: r =>
        if b = 1 then some (.vbool true, r)
        else if b = 0 then some (.vbool false, r)
        else none
    else if t = 4 then
      match decNatSeq bs with
      | some (ns, r) => some (.vblob ns, r)
      | none => none
    else if t = 5 then
      match decVarint bs with
      | some (k, r) =>
        match decodeTuple fuel k r with
        | some (vs, r') => some (.vtuple vs, r')
        | none => none
      | none => none
    else none
termination_by fuel _ => (fuel, 0)

/-- Decode exactly `k` tuple components. -/
def decodeTuple : Nat → Nat → List Nat → Option (ValueTuple × List Nat)
  | _, 0, bs => some (.nil, bs)
  | fuel, k + 1, bs =>
    match decodeVal fuel bs with
    | some (v, r) =>
      match decodeTuple fuel k r with
      | some (vs, r') => some (.cons v vs, r')
      | none => none
    | none => none
termination_by fuel k _ => (fuel, k + 1)

end

mutual

/-- Round-trip at the value level: decoding the encoding of `v` with
enough fuel returns `v` and leaves the trailing bytes untouched. -/
theorem decodeVal_encodeVal : ∀ (v : Value) (fuel : Nat), v.depth ≤ fuel →
    ∀ rest, decodeVal fuel (encodeVal v ++ rest) = some (v, rest)
  | .vint i, 0, h, _ => by simp [Value.depth] at h
  | .vint i, fuel + 1, _, rest => by
    simp only [encodeVal, List.cons_append]
    rw [decodeVal]
    by_cases hi : i < 0
    · simp [hi, decVarint_encVarint, abs_of_neg hi]
    · simp [hi, decVarint_encVarint, abs_of_nonneg (not_lt.mp hi)]
  | .vfloat bits, 0, h, _ => by simp [Value.depth] at h
  | .vfloat bits, fuel + 1, _, rest => by
    simp only [encodeVal, List.cons_append]
    rw [decodeVal.eq_def]
    simp [decVarint_encVarint]
  | .vstr s, 0, h, _ => by simp [Value.depth] at h
  | .vstr s, fuel + 1, _, rest => by
    simp only [encodeVal, List.cons_append]
    rw [decodeVal.eq_def]
    simp [decString_encString]
  | .vbool b, 0, h, _ => by simp [Value.depth] at h
  | .vbool b, fuel + 1, _, rest => by
    simp only [encodeVal, List.cons_append]
    rw [decodeVal]
    cases b <;> simp
  | .vblob bs, 0, h, _ => by simp [Value.depth] at h
  | .vblob bs, fuel + 1, _, rest => by
    simp only [encodeVal, List.cons_append]
    rw [decodeVal.eq_def]
    simp [decNatSeq_encNatSeq]
  | .vtuple vs, 0, h, _ => by simp [Value.depth] at h
  | .vtuple vs, fuel + 1, h, rest => by
    have hvs : vs.depth ≤ fuel := by
      simp only [Value.depth] at h
      omega
    simp only [encodeVal, List.cons_append, List.append_assoc]
    rw [decodeVal.eq_def]
    simp [decVarint_encVarint, decodeTuple_encodeTuple vs fuel hvs rest]

/-- Round-trip for tuple components: decoding `vs.size` components from
the encoding of `vs` returns `vs`. -/
theorem decodeTuple_encodeTuple : ∀ (vs : ValueTuple) (fuel : Nat), vs.depth ≤ fuel →
    ∀ rest, decodeTuple fuel vs.size (encodeTuple vs ++ rest) = some (vs, rest)
  | .nil, fuel, _, rest => by simp [encodeTuple, ValueTuple.size, decodeTuple]
  | .cons v vs, fuel, h, rest => by
    have hv : v.depth ≤ fuel := le_trans (le_max_left _ _) (by simpa [ValueTuple.depth] using h)
    have hvs : vs.depth ≤ fuel := le_trans (le_max_right _ _) (by simpa [ValueTuple.depth] using h)
    simp only [encodeTuple, ValueTuple.size, List.append_assoc, decodeTuple,
      decodeVal_encodeVal v fuel hv, decodeTuple_encodeTuple vs fuel hvs]

end

mutual

/-- A value's depth is bounded by the length of its encoding, so the
input length is always enough decoder fuel. -/
theorem depth_le_encodeVal_length : ∀ v : Value, v.depth ≤ (encodeVal v).length
  | .vint i => by simp [Value.depth, encodeVal]
  | .vfloat bits => by simp [Value.depth, encodeVal]
  | .vstr s => by simp [Value.depth, encodeVal]
  | .vbool b => by simp [Value.depth, encodeVal]
  | .vblob bs => by simp [Value.depth, encodeVal]
  | .vtuple vs => by
    have h := depth_le_encodeTuple_length vs
    have hv := encVarint_length_pos vs.size
    simp only [Value.depth, encodeVal, List.length_cons, List.length_append]
    omega

/-- A tuple's depth is bounded by one more than the length of its
component encoding. -/
theorem depth_le_encodeTuple_length : ∀ vs : ValueTuple, vs.depth ≤ (encodeTuple vs).length + 1
  | .nil => by simp [ValueTuple.depth, encodeTuple]
  | .cons v vs => by
    have hv := depth_le_encodeVal_length v
    have hvs := depth_le_encodeTuple_length vs
    have hv1 : 1 ≤ (encodeVal v).length := by
      cases v <;> simp [encodeVal]
    simp only [ValueTuple.depth, encodeTuple, List.length_append, max_le_iff]
    omega

end

/-- A record: a mapping of field names to dynamically-typed values.
Modelled from the spec (§4.3): "a record (a mapping of named fields to
opaque values, where values may be scalars, byte blobs, or nested
tuples)". -/
abbrev Record := List (String × Value)

/-- Encode one named field: the name followed by the value. -/
def encodePair (p : String × Value) : List Nat :=
  encString p.1 ++ encodeVal p.2

/-- Encode a record: a varint field count followed by each field. -/
def encodeRecord (r : Record) : List Nat :=
  encVarint r.length ++ r.flatMap encodePair

/-- Decode exactly `k` named fields. -/
def decodePairs (fuel : Nat) : Nat → List Nat → Option (Record × List Nat)
  | 0, bs => some ([], bs)
  | k + 1, bs =>
    match decString bs with
    | some (s, r) =>
      match decodeVal fuel r with
      | some (v, r') =>
        match decodePairs fuel k r' with
        | some (ps, r'') => some ((s, v) :: ps, r'')
        | none => none
      | none => none
    | none => none

/-- Decode a record.  All-or-nothing: every field must decode and the
input must be consumed exactly, else the whole decode fails (the
`CodecError` condition). -/
def decodeRecord (bs : List Nat) : Option Record :=
  match decVarint bs with
  | some (k, r) =>
    match decodePairs bs.length k r with
    | some (ps, []) => some ps
    | _ => none
  | none => none

theorem decodePairs_append (r : Record) (fuel : Nat)
    (h : ∀ p ∈ r, (Value.depth p.2) ≤ fuel) (rest : List Nat) :
    decodePairs fuel r.length (r.flatMap encodePair ++ rest) = some (r, rest) := by
  induction r with
  | nil => simp [decodePairs]
  | cons p ps ih =>
    have hp : (Value.depth p.2) ≤ fuel := h p (List.mem_cons_self p ps)
    have hps : ∀ q ∈ ps, (Value.depth q.2) ≤ fuel := fun q hq => h q (List.mem_cons_of_mem p hq)
    simp only [List.flatMap_cons, List.length_cons, encodePair, List.append_assoc,
      decodePairs, decString_encString, decodeVal_encodeVal p.2 fuel hp, ih hps]

/-- The length of a member field's value encoding is bounded by the
length of the whole field block. -/
theorem encodeVal_length_le_flatMap (r : Record) :
    ∀ p ∈ r, (encodeVal p.2).length ≤ (r.flatMap encodePair).length := by
  induction r with
  | nil => simp
  | cons q ps ih =>
    intro p hp
    rcases List.mem_cons.mp hp with rfl | hmem
    · simp only [List.flatMap_cons, List.length_append, encodePair]
      omega
    · have := ih p hmem
      simp only [List.flatMap_cons, List.length_append]
      omega

/-- C2: For every record `r` (a mapping of field names to values, where a
value may be an integer, float, string, boolean, byte blob, or nested
tuple of the same), decoding the encoding of `r` yields a record equal to
`r`: every field name maps back to its original value, including the
value's type tag. -/
theorem claimC2_record_codec_roundtrip (r : Record) :
    decodeRecord (encodeRecord r) = some r := by
  have hlen : (r.flatMap encodePair).length ≤ (encodeRecord r).length := by
    simp only [encodeRecord, List.length_append]
    omega
  have hdepth : ∀ p ∈ r, (Value.depth p.2) ≤ (encodeRecord r).length := by
    intro p hp
    calc Value.depth p.2 ≤ (encodeVal p.2).length := depth_le_encodeVal_length p.2
    _ ≤ (r.flatMap encodePair).length := encodeVal_length_le_flatMap r p hp
    _ ≤ (encodeRecord r).length := hlen
  have hpairs := decodePairs_append r (encodeRecord r).length hdepth []
  simp only [List.append_nil] at hpairs
  simp only [encodeRecord] at hpairs ⊢
  simp only [decodeRecord, decVarint_encVarint, hpairs]

/-! ## Identity & path scheme

Modelled from the spec (§4.1, §6): a deterministic mapping from an
entity's logical identity `(root, project_name, [experiment_id,
[child_kind, child_id]])` to a backend-relative path.  A path is a list
of segments (the backend joins them with its separator); the root is a
single opaque segment.  Names and ids containing the path-separator
character are rejected. -/

/-- The five child kinds, namespaced as sibling subdirectories under the
experiment path. -/
inductive ChildKind where
  | parameter
  | feature
  | metric
  | artifact
  | dataframe
  deriving DecidableEq, Repr

/-- Directory segment for each child kind. -/
def ChildKind.dirName : ChildKind → String
  | .parameter => "parameters"
  | .feature => "features"
  | .metric => "metrics"
  | .artifact => "artifacts"
  | .dataframe => "dataframes"

/-- A backend-relative path: a list of segments. -/
abbrev Path := List String

/-- Does a name contain the path-separator character? -/
def hasSep (s : String) : Bool :=
  s.data.contains '/'

/-- An entity's logical identity tuple (§4.1): project, experiment
within a project, or child record within an experiment. -/
inductive Identity where
  | projectId (root name : String)
  | experimentId (root name eid : String)
  | childId (root name eid : String) (kind : ChildKind) (cid : String)
  deriving DecidableEq, Repr

/-- Identity validity: the caller-supplied name and the generated ids may
not contain the path separator (§4.1 "Rejects project names or ids
containing path-separator characters"). -/
def Identity.valid : Identity → Bool
  | .projectId _ n => !hasSep n
  | .experimentId _ n e => !hasSep n && !hasSep e
  | .childId _ n e _ c => !hasSep n && !hasSep e && !hasSep c

/-- The raw storage layout of §6:
`<root>/<project_name>/metadata`,
`<root>/<project_name>/experiments/<experiment_id>/metadata`, and
`<root>/<project_name>/experiments/<experiment_id>/<kind_dir>/<child_id>`. -/
def Identity.rawPath : Identity → Path
  | .projectId r n => [r, n, "metadata"]
  | .experimentId r n e => [r, n, "experiments", e, "metadata"]
  | .childId r n e k c => [r, n, "experiments", e, k.dirName, c]

/-- The path mapping: rejects invalid identities, otherwise yields the
layout path.  A pure function of the identity tuple. -/
def Identity.pathOf (i : Identity) : Option Path :=
  if i.valid then some i.rawPath else none

/-- The kind directories are pairwise distinct and never the reserved
segment "metadata" or "experiments". -/
theorem dirName_injective : ∀ k1 k2 : ChildKind, k1.dirName = k2.dirName → k1 = k2 := by
  intro k1 k2 h
  cases k1 <;> cases k2 <;> first
    | rfl
    | (exfalso; simp only [ChildKind.dirName] at h; exact absurd h (by decide))

/-- C3: For all valid identity tuples, the identity scheme's path mapping
is a deterministic and injective function: the same identity tuple always
yields the same path, and any two distinct identity tuples yield distinct
paths. -/
theorem claimC3_path_mapping_deterministic_injective :
    (∀ i : Identity, i.pathOf = i.pathOf) ∧
    (∀ i1 i2 : Identity, ∀ p : Path,
      i1.pathOf = some p → i2.pathOf = some p → i1 = i2) := by
  constructor
  · intro i
    rfl
  · intro i1 i2 p h1 h2
    simp only [Identity.pathOf] at h1 h2
    by_cases v1 : i1.valid
    case neg => simp [v1] at h1
    by_cases v2 : i2.valid
    case neg => simp [v2] at h2
    simp only [v1, v2, if_pos, Option.some.injEq] at h1 h2
    have hraw : i1.rawPath = i2.rawPath := h1.trans h2.symm
    cases i1 <;> cases i2 <;>
      (try (exfalso
            have hlen := congrArg List.length hraw
            simp only [Identity.rawPath, List.length_cons, List.length_nil] at hlen
            exact absurd hlen (by omega))) <;>
      simp only [Identity.rawPath, List.cons.injEq, and_true] at hraw
    · obtain ⟨hr, hn⟩ := hraw
      rw [hr, hn]
    · obtain ⟨hr, hn, -, he⟩ := hraw
      rw [hr, hn, he]
    · obtain ⟨hr, hn, -, he, hk, hc⟩ := hraw
      rw [hr, hn, he, hc, dirName_injective _ _ hk]

/-! ## Entity records

Modelled from the spec (§3): the data model's plain structured values.
Opaque payloads (training metadata, parameter and metric values,
importance scores) are `Value`s; artifact payloads are byte lists. -/

/-- A project record: keyed by caller-supplied name (§3). -/
structure ProjectRec where
  name : String
  description : Option String
  trainingMetadata : Option Value
  deriving DecidableEq, Repr

/-- An experiment record (§3): generated id, owning project reference,
optional names, opaque training metadata, mutable tag list, optional
commit hash. -/
structure ExperimentRec where
  id : String
  projectName : String
  name : Option String
  modelName : Option String
  trainingMetadata : Option Value
  tags : List String
  commitHash : Option String
  deriving DecidableEq, Repr

/-- A parameter record: name unique within an experiment (§3). -/
structure ParameterRec where
  name : String
  value : Value
  deriving DecidableEq, Repr

/-- A feature record: disambiguated by a generated internal id (§4.4). -/
structure FeatureRec where
  id : String
  name : String
  importance : Option Value
  deriving DecidableEq, Repr

/-- A metric record: name-keyed like parameters (§4.4). -/
structure MetricRec where
  name : String
  value : Value
  higherIsBetter : Option Bool
  deriving DecidableEq, Repr

/-- An artifact record: generated internal id, raw byte payload (§3). -/
structure ArtifactRec where
  id : String
  name : String
  payload : List Nat
  contentType : Option String
  deriving DecidableEq, Repr

/-- A dataframe record: generated internal id, columnar payload (§3). -/
structure DataframeRec where
  id : String
  name : String
  columns : List (String × List Value)
  deriving DecidableEq, Repr

/-- The stored entity at a path: the typed payload the codec round-trips
(claim C2 settles the byte level; the repository layer is modelled over
decoded records, justified by the backend's atomic whole-record writes). -/
inductive Entity where
  | projectE : ProjectRec → Entity
  | experimentE : ExperimentRec → Entity
  | parameterE : ParameterRec → Entity
  | featureE : FeatureRec → Entity
  | metricE : MetricRec → Entity
  | artifactE : ArtifactRec → Entity
  | dataframeE : DataframeRec → Entity
  deriving DecidableEq, Repr

/-! ## Storage backend

Modelled from the spec (§4.2): a mapping from paths to whole records
with write/read/list/delete primitives; `write` is atomic, so the store
only ever holds complete records.  An association list with at most one
binding per path. -/

/-- The backend store. -/
abbrev Store := List (Path × Entity)

/-- `read`: the record at a path, if any. -/
def storeGet (st : Store) (p : Path) : Option Entity :=
  match st.find? (fun e => e.1 == p) with
  | some e => some e.2
  | none => none

/-- `write`: atomically replace the record at a path. -/
def storeSet (st : Store) (p : Path) (v : Entity) : Store :=
  (p, v) :: st.filter (fun e => !(e.1 == p))

/-- Does path `q` lie inside the subtree rooted at `pre`? -/
def within (pre q : Path) : Bool :=
  match pre, q with
  | [], _ => true
  | _ :: _, [] => false
  | a :: pre', b :: q' => a == b && within pre' q'

/-- `delete`: recursively remove the subtree rooted at `pre`; a no-op
when nothing lives there. -/
def storeDeleteTree (st : Store) (pre : Path) : Store :=
  st.filter (fun e => !(within pre e.1))

theorem storeGet_set (st : Store) (p : Path) (v : Entity) :
    storeGet (storeSet st p v) p = some v := by
  simp [storeGet, storeSet, List.find?]

theorem storeGet_set_ne (st : Store) (p q : Path) (v : Entity) (h : q ≠ p) :
    storeGet (storeSet st p v) q = storeGet st q := by
  simp only [storeGet, storeSet]
  have hne : ((p, v).1 == q) = false := by
    simp [beq_iff_eq]
    exact fun hqp => h hqp.symm
  rw [List.find?]
  simp only [hne]
  induction st with
  | nil => simp
  | cons e st ih =>
    by_cases he : e.1 == q
    · by_cases hep : e.1 == p
      · exfalso
        have h1 : e.1 = q := by simpa [beq_iff_eq] using he
        have h2 : e.1 = p := by simpa [beq_iff_eq] using hep
        exact h (h1 ▸ h2 ▸ rfl)
      · simp [List.filter, List.find?, hep, he]
    · by_cases hep : e.1 == p
      · simpa [List.filter, List.find?, hep, he] using ih
      · simpa [List.filter, List.find?, hep, he] using ih

/-! ## Repository

Modelled from the spec (§4.4): the central orchestrator, the only
component with write authority over the backend.  A repository instance
is a root plus the backend store. -/

/-- The error taxonomy of §7. -/
inductive RubiconError where
  | notFound
  | alreadyExists
  | codecError
  | backendIOError
  | identityError
  deriving DecidableEq, Repr

/-- A repository: the configured root and the backend store. -/
structure RepoState where
  root : String
  store : Store
  deriving DecidableEq, Repr

/-- Path of a project record. -/
def projectPath (root name : String) : Path :=
  (Identity.projectId root name).rawPath

/-- Path of an experiment record. -/
def experimentPath (root name eid : String) : Path :=
  (Identity.experimentId root name eid).rawPath

/-- Path of a child record. -/
def childPath (root name eid : String) (k : ChildKind) (cid : String) : Path :=
  (Identity.childId root name eid k cid).rawPath

/-- The directory subtree owned by an experiment. -/
def experimentDir (root name eid : String) : Path :=
  [root, name, "experiments", eid]

/-- `create_project(name, description, metadata)`: fails with
`AlreadyExists` if a project record already exists at that name's path,
rejects separator-bearing names, else writes the record and returns it. -/
def createProject (s : RepoState) (name : String) (descr : Option String)
    (meta : Option Value) : Except RubiconError (ProjectRec × RepoState) :=
  if hasSep name then .error .identityError
  else
    match storeGet s.store (projectPath s.root name) with
    | some _ => .error .alreadyExists
    | none =>
      let p : ProjectRec := ⟨name, descr, meta⟩
      .ok (p, ⟨s.root, storeSet s.store (projectPath s.root name) (.projectE p)⟩)

/-- `get_project(name)`: fails with `NotFound` if absent. -/
def getProject (s : RepoState) (name : String) : Except RubiconError ProjectRec :=
  match storeGet s.store (projectPath s.root name) with
  | some (.projectE p) => .ok p
  | some _ => .error .codecError
  | none => .error .notFound

/-- Modelled from the spec: the client's `get_or_create_project` is shown
by the notebooks (`rubicon.get_or_create_project(...)`) but its body is
not among the distributed sources; per its name and usage it returns the
existing project when the name is taken and otherwise creates it. -/
def getOrCreateProject (s : RepoState) (name : String) (descr : Option String)
    (meta : Option Value) : Except RubiconError (ProjectRec × RepoState) :=
  match getProject s name with
  | .ok p => .ok (p, s)
  | .error .notFound => createProject s name descr meta
  | .error e => .error e

/-- The experiments of a project: every experiment record stored at its
derived path under the project (`list_children` for experiments). -/
def experimentsOf (s : RepoState) (proj : String) : List ExperimentRec :=
  s.store.filterMap fun pe =>
    match pe.2 with
    | .experimentE ex =>
      if pe.1 == experimentPath s.root proj ex.id then some ex else none
    | _ => none

/-- Fresh-id generation with bounded retry (§4.4): take candidates from
the generator's stream, skipping collisions with existing ids, failing
once the retry bound is exhausted. -/
def pickFreshId (existing : List String) : List String → Nat → Option String
  | _, 0 => none
  | [], _ => none
  | c :: cs, b + 1 => if existing.contains c then pickFreshId existing cs b else some c

theorem pickFreshId_fresh (existing : List String) :
    ∀ (cs : List String) (b : Nat) (c : String),
      pickFreshId existing cs b = some c → existing.contains c = false
  | _, 0, c => by simp [pickFreshId]
  | [], b + 1, c => by simp [pickFreshId]
  | c0 :: cs, b + 1, c => by
    simp only [pickFreshId]
    by_cases h : existing.contains c0
    · simp only [h, if_true]
      exact pickFreshId_fresh existing cs b c
    · rw [if_neg h]
      intro hc
      cases hc
      simpa using h

/-- The caller-visible fields of `create_experiment`. -/
structure ExperimentFields where
  name : Option String
  modelName : Option String
  trainingMetadata : Option Value
  tags : List String
  commitHash : Option String
  deriving DecidableEq, Repr

/-- `create_experiment(project, fields)`: requires the parent project,
generates a fresh unique id (collision-checked against existing
children, regenerate on collision, bounded retry, fatal
`BackendIOError`-class failure after exhausting retries), writes the
record under the project path, returns it.  `candidates` is the id
generator's stream and `bound` the retry bound. -/
def createExperiment (s : RepoState) (proj : String) (f : ExperimentFields)
    (candidates : List String) (bound : Nat) :
    Except RubiconError (ExperimentRec × RepoState) :=
  match storeGet s.store (projectPath s.root proj) with
  | none => .error .notFound
  | some _ =>
    match pickFreshId ((experimentsOf s proj).map (fun e => e.id)) candidates bound with
    | none => .error .backendIOError
    | some eid =>
      let ex : ExperimentRec :=
        ⟨eid, proj, f.name, f.modelName, f.trainingMetadata, f.tags, f.commitHash⟩
      .ok (ex, ⟨s.root, storeSet s.store (experimentPath s.root proj eid) (.experimentE ex)⟩)

/-- The parameters of an experiment, as stored at their name-derived
paths (`list_children` for parameters). -/
def parametersOf (s : RepoState) (proj eid : String) : List ParameterRec :=
  s.store.filterMap fun pe =>
    match pe.2 with
    | .parameterE pr =>
      if pe.1 == childPath s.root proj eid .parameter pr.name then some pr else none
    | _ => none

/-- The metrics of an experiment. -/
def metricsOf (s : RepoState) (proj eid : String) : List MetricRec :=
  s.store.filterMap fun pe =>
    match pe.2 with
    | .metricE m =>
      if pe.1 == childPath s.root proj eid .metric m.name then some m else none
    | _ => none

/-- The features of an experiment, stored at their id-derived paths. -/
def featuresOf (s : RepoState) (proj eid : String) : List FeatureRec :=
  s.store.filterMap fun pe =>
    match pe.2 with
    | .featureE fr =>
      if pe.1 == childPath s.root proj eid .feature fr.id then some fr else none
    | _ => none

/-- The artifacts of an experiment. -/
def artifactsOf (s : RepoState) (proj eid : String) : List ArtifactRec :=
  s.store.filterMap fun pe =>
    match pe.2 with
    | .artifactE ar =>
      if pe.1 == childPath s.root proj eid .artifact ar.id then some ar else none
    | _ => none

/-- The dataframes of an experiment. -/
def dataframesOf (s : RepoState) (proj eid : String) : List DataframeRec :=
  s.store.filterMap fun pe =>
    match pe.2 with
    | .dataframeE dr =>
      if pe.1 == childPath s.root proj eid .dataframe dr.id then some dr else none
    | _ => none

/-- `log_parameter`: parameters are keyed by name within the experiment;
a second log of the same name overwrites the record at the same path
(last-write-wins, §4.4). -/
def logParameter (s : RepoState) (proj eid name : String) (value : Value) :
    Except RubiconError (ParameterRec × RepoState) :=
  match storeGet s.store (experimentPath s.root proj eid) with
  | none => .error .notFound
  | some _ =>
    let pr : ParameterRec := ⟨name, value⟩
    .ok (pr, ⟨s.root, storeSet s.store (childPath s.root proj eid .parameter name)
      (.parameterE pr)⟩)

/-- `log_metric`: name-keyed like parameters (last-write-wins, §4.4). -/
def logMetric (s : RepoState) (proj eid name : String) (value : Value)
    (hib : Option Bool) : Except RubiconError (MetricRec × RepoState) :=
  match storeGet s.store (experimentPath s.root proj eid) with
  | none => .error .notFound
  | some _ =>
    let m : MetricRec := ⟨name, value, hib⟩
    .ok (m, ⟨s.root, storeSet s.store (childPath s.root proj eid .metric name)
      (.metricE m)⟩)

/-- `log_feature`: each call creates a distinct record, disambiguated by
a fresh internal id, never by name (§4.4); name collisions are allowed. -/
def logFeature (s : RepoState) (proj eid name : String) (importance : Option Value)
    (candidates : List String) (bound : Nat) :
    Except RubiconError (FeatureRec × RepoState) :=
  match storeGet s.store (experimentPath s.root proj eid) with
  | none => .error .notFound
  | some _ =>
    match pickFreshId ((featuresOf s proj eid).map (fun f => f.id)) candidates bound with
    | none => .error .backendIOError
    | some fid =>
      let fr : FeatureRec := ⟨fid, name, importance⟩
      .ok (fr, ⟨s.root, storeSet s.store (childPath s.root proj eid .feature fid)
        (.featureE fr)⟩)

/-- `log_artifact`: id-keyed, each call creates a distinct record (§4.4). -/
def logArtifact (s : RepoState) (proj eid name : String) (payload : List Nat)
    (contentType : Option String) (candidates : List String) (bound : Nat) :
    Except RubiconError (ArtifactRec × RepoState) :=
  match storeGet s.store (experimentPath s.root proj eid) with
  | none => .error .notFound
  | some _ =>
    match pickFreshId ((artifactsOf s proj eid).map (fun a => a.id)) candidates bound with
    | none => .error .backendIOError
    | some aid =>
      let ar : ArtifactRec := ⟨aid, name, payload, contentType⟩
      .ok (ar, ⟨s.root, storeSet s.store (childPath s.root proj eid .artifact aid)
        (.artifactE ar)⟩)

/-- `log_dataframe`: id-keyed, each call creates a distinct record (§4.4). -/
def logDataframe (s : RepoState) (proj eid name : String)
    (columns : List (String × List Value)) (candidates : List String) (bound : Nat) :
    Except RubiconError (DataframeRec × RepoState) :=
  match storeGet s.store (experimentPath s.root proj eid) with
  | none => .error .notFound
  | some _ =>
    match pickFreshId ((dataframesOf s proj eid).map (fun d => d.id)) candidates bound with
    | none => .error .backendIOError
    | some did =>
      let dr : DataframeRec := ⟨did, name, columns⟩
      .ok (dr, ⟨s.root, storeSet s.store (childPath s.root proj eid .dataframe did)
        (.dataframeE dr)⟩)

/-- Tag-query match mode (§4.4): `any` (union) or `all` (intersection). -/
inductive MatchMode where
  | anyOf
  | allOf
  deriving DecidableEq, Repr

/-- Does an experiment's tag set satisfy the requested tags under the
match mode? -/
def tagMatch (mode : MatchMode) (tags : List String) (e : ExperimentRec) : Bool :=
  match mode with
  | .anyOf => tags.any (fun t => e.tags.contains t)
  | .allOf => tags.all (fun t => e.tags.contains t)

/-- `query_experiments(project, tags, match_mode)` (§4.4): empty tag
list means all experiments in the project; otherwise filter by the match
mode. -/
def queryExperiments (s : RepoState) (proj : String) (tags : List String)
    (mode : MatchMode) : List ExperimentRec :=
  if tags.isEmpty then experimentsOf s proj
  else (experimentsOf s proj).filter (tagMatch mode tags)

/-- Merge new tags into a tag set, skipping those already present (§3:
"idempotent under repeated addition — adding an existing tag is a
no-op"). -/
def mergeTags (xs ys : List String) : List String :=
  ys.foldl (fun acc t => if acc.contains t then acc else acc ++ [t]) xs

/-- `add_tags(experiment, tags)` (§4.4): merges into the existing tag
set and re-writes the whole experiment record. -/
def addTags (s : RepoState) (proj eid : String) (tags : List String) :
    Except RubiconError (ExperimentRec × RepoState) :=
  match storeGet s.store (experimentPath s.root proj eid) with
  | some (.experimentE ex) =>
    let ex2 : ExperimentRec :=
      ⟨ex.id, ex.projectName, ex.name, ex.modelName, ex.trainingMetadata,
        mergeTags ex.tags tags, ex.commitHash⟩
    .ok (ex2, ⟨s.root, storeSet s.store (experimentPath s.root proj eid) (.experimentE ex2)⟩)
  | some _ => .error .codecError
  | none => .error .notFound

/-- `remove_tags(experiment, tags)` (§4.4): set difference, re-writing
the whole record. -/
def removeTags (s : RepoState) (proj eid : String) (tags : List String) :
    Except RubiconError (ExperimentRec × RepoState) :=
  match storeGet s.store (experimentPath s.root proj eid) with
  | some (.experimentE ex) =>
    let ex2 : ExperimentRec :=
      ⟨ex.id, ex.projectName, ex.name, ex.modelName, ex.trainingMetadata,
        ex.tags.filter (fun t => !(tags.contains t)), ex.commitHash⟩
    .ok (ex2, ⟨s.root, storeSet s.store (experimentPath s.root proj eid) (.experimentE ex2)⟩)
  | some _ => .error .codecError
  | none => .error .notFound

/-- `list_children(parent, kind)` at the storage level: every record in
the kind's namespace directory under the experiment. -/
def listChildren (s : RepoState) (proj eid : String) (k : ChildKind) : List Entity :=
  s.store.filterMap fun pe =>
    if within [s.root, proj, "experiments", eid, k.dirName] pe.1 then some pe.2 else none

/-- `delete(entity)` for an experiment (§4.4): recursively deletes the
entity's storage subtree; fails silently (no-op) if already absent —
always returns success. -/
def deleteExperiment (s : RepoState) (proj eid : String) :
    Except RubiconError RepoState :=
  .ok ⟨s.root, storeDeleteTree s.store (experimentDir s.root proj eid)⟩

/-! ## Entity client layer: synchronous and asynchronous execution

Modelled from the spec (§4.5, §5, §9): the synchronous client blocks
through each call; the asynchronous client returns suspendable units of
work driven by a single-threaded cooperative scheduler that switches
tasks only at I/O suspension points.  Only the object-store backend's
calls actually suspend; filesystem and in-memory calls complete
synchronously, so a task scheduled against them runs to completion
without yielding. -/

/-- The three storage backends (§4.2). -/
inductive Backend where
  | filesystem
  | memory
  | objectStore
  deriving DecidableEq, Repr

/-- Does this backend's I/O primitive suspend the calling task? -/
def Backend.suspends : Backend → Bool
  | .objectStore => true
  | .filesystem => false
  | .memory => false

/-- Modelled from the spec (§4.5): selecting the asynchronous variant
against a filesystem or in-memory backend is documented, not forbidden —
no backend is rejected. -/
def asyncSelectable : Backend → Bool
  | _ => true

/-- A primitive repository call: transforms the state and reports a
result. -/
abbrev PrimOp := RepoState → RepoState × Except RubiconError Entity

/-- An asynchronous unit of work: the primitive calls a coroutine issues
in order. -/
abbrev AsyncTask := List PrimOp

/-- Run primitive calls sequentially, collecting results in order. -/
def runPrims : List PrimOp → RepoState → RepoState × List (Except RubiconError Entity)
  | [], s => (s, [])
  | op :: ops, s =>
    ((runPrims ops (op s).1).1, (op s).2 :: (runPrims ops (op s).1).2)

/-- The synchronous client: every call of every task runs in order on
the calling thread. -/
def syncRun (tasks : List AsyncTask) (s : RepoState) :
    RepoState × List (Except RubiconError Entity) :=
  runPrims tasks.flatten s

/-- The asynchronous client's gather loop: a FIFO cooperative scheduler.
A scheduled task runs until its next suspension point — one primitive
call on a suspending backend (after which it is requeued), its whole
remainder on a non-suspending backend. -/
def gatherRun (b : Backend) : List AsyncTask → RepoState →
    RepoState × List (Except RubiconError Entity)
  | [], s => (s, [])
  | t :: queue, s =>
    if b.suspends then
      match t with
      | [] => gatherRun b queue s
      | op :: ops =>
        ((gatherRun b (queue ++ [ops]) (op s).1).1,
          (op s).2 :: (gatherRun b (queue ++ [ops]) (op s).1).2)
    else
      ((gatherRun b queue (runPrims t s).1).1,
        (runPrims t s).2 ++ (gatherRun b queue (runPrims t s).1).2)
termination_by queue _ => (queue.map (fun t => t.length + 1)).sum
decreasing_by
  · simp only [List.map_cons, List.sum_cons]
    omega
  · simp only [List.map_cons, List.sum_cons, List.map_append, List.sum_append,
      List.map_nil, List.sum_nil, List.length_cons]
    omega
  · simp only [List.map_cons, List.sum_cons]
    omega

/-! ## Settling the claims -/

theorem getProject_notFound_iff (s : RepoState) (name : String) :
    getProject s name = .error .notFound ↔
      storeGet s.store (projectPath s.root name) = none := by
  unfold getProject
  cases hget : storeGet s.store (projectPath s.root name) with
  | none => simp
  | some e => cases e <;> simp

/-- C4: `create_project(name, description, metadata)` fails with
`AlreadyExists` if and only if a project record already exists at that
name's path, and otherwise writes the record and returns the project;
`get_project(name)` fails with `NotFound` when the project is absent,
and after a successful `create_project` a `get_project` with the same
name returns a project bearing that name and the originally supplied
description. -/
theorem claimC4_create_get_project (s : RepoState) (name : String)
    (descr : Option String) (meta : Option Value) (h : hasSep name = false) :
    (createProject s name descr meta = .error .alreadyExists ↔
      (storeGet s.store (projectPath s.root name)).isSome = true) ∧
    (storeGet s.store (projectPath s.root name) = none →
      getProject s name = .error .notFound) ∧
    (∀ p s2, createProject s name descr meta = .ok (p, s2) →
      getProject s2 name = .ok p ∧ p.name = name ∧ p.description = descr) := by
  refine ⟨?_, ?_, ?_⟩
  · unfold createProject
    rw [if_neg (by simp [h])]
    cases hget : storeGet s.store (projectPath s.root name) <;> simp
  · intro hnone
    exact (getProject_notFound_iff s name).mpr hnone
  · intro p s2 hok
    unfold createProject at hok
    rw [if_neg (by simp [h])] at hok
    cases hget : storeGet s.store (projectPath s.root name) with
    | some e => rw [hget] at hok; exact absurd hok (by simp)
    | none =>
      rw [hget] at hok
      simp only [Except.ok.injEq, Prod.mk.injEq] at hok
      obtain ⟨hp, hs2⟩ := hok
      refine ⟨?_, ?_, ?_⟩
      · rw [← hs2, ← hp]
        unfold getProject
        simp [storeGet_set]
      · rw [← hp]
      · rw [← hp]

/-- C10: the client additionally exposes `get_or_create_project(name, ...)`:
for every name, if no project with that name exists it creates and
returns a new one, and if one already exists it returns the existing
project (with its previously stored fields) instead of failing with
`AlreadyExists`, so two successive calls with the same name yield the
same project. -/
theorem claimC10_get_or_create_project (s : RepoState) (name : String)
    (descr descr2 : Option String) (meta meta2 : Option Value)
    (h : hasSep name = false) :
    (∀ p, getProject s name = .ok p →
      getOrCreateProject s name descr meta = .ok (p, s)) ∧
    (getProject s name = .error .notFound →
      ∃ s2, getOrCreateProject s name descr meta = .ok (⟨name, descr, meta⟩, s2)) ∧
    (∀ p s2, getOrCreateProject s name descr meta = .ok (p, s2) →
      getOrCreateProject s2 name descr2 meta2 = .ok (p, s2)) := by
  refine ⟨?_, ?_, ?_⟩
  · intro p hp
    unfold getOrCreateProject
    rw [hp]
  · intro hnf
    have hnone := (getProject_notFound_iff s name).mp hnf
    unfold getOrCreateProject
    rw [hnf]
    unfold createProject
    rw [if_neg (by simp [h]), hnone]
    exact ⟨_, rfl⟩
  · intro p s2 hok
    unfold getOrCreateProject at hok
    cases hget : getProject s name with
    | ok q =>
      rw [hget] at hok
      simp only [Except.ok.injEq, Prod.mk.injEq] at hok
      obtain ⟨hq, hs⟩ := hok
      unfold getOrCreateProject
      rw [← hs, hget, hq]
    | error e =>
      rw [hget] at hok
      cases e with
      | alreadyExists => simp at hok
      | codecError => simp at hok
      | backendIOError => simp at hok
      | identityError => simp at hok
      | notFound =>
        simp only [] at hok
        have hnone := (getProject_notFound_iff s name).mp hget
        unfold createProject at hok
        rw [if_neg (by simp [h]), hnone] at hok
        simp only [Except.ok.injEq, Prod.mk.injEq] at hok
        obtain ⟨hp, hs2⟩ := hok
        have hget2 : getProject s2 name = .ok p := by
          rw [← hs2, ← hp]
          unfold getProject
          simp [storeGet_set]
        unfold getOrCreateProject
        rw [hget2]

theorem filterMap_filter_of_none {α : Type} (st : Store) (p : Path)
    (sel : Path × Entity → Option α)
    (h : ∀ pe ∈ st, pe.1 = p → sel pe = none) :
    (st.filter (fun e => !(e.1 == p))).filterMap sel = st.filterMap sel := by
  induction st with
  | nil => rfl
  | cons e st ih =>
    have ih2 := ih (fun pe hpe hp => h pe (List.mem_cons_of_mem e hpe) hp)
    by_cases hep : e.1 = p
    · have hsel : sel e = none := h e (List.mem_cons_self e st) hep
      have hb : (e.1 == p) = true := by simp [hep]
      simp [List.filter_cons, hb, List.filterMap_cons, hsel, ih2]
    · have hb : (e.1 == p) = false := by simp [hep]
      simp only [List.filter_cons, hb, Bool.not_false, if_pos, List.filterMap_cons]
      cases hse : sel e <;> simp [hse, ih2]

/-- Writing a record at a path where no listed record lives prepends it
to the listing. -/
theorem filterMap_storeSet {α : Type} (st : Store) (p : Path) (e : Entity)
    (sel : Path × Entity → Option α) (r : α)
    (hhead : sel (p, e) = some r)
    (h : ∀ pe ∈ st, pe.1 = p → sel pe = none) :
    (storeSet st p e).filterMap sel = r :: st.filterMap sel := by
  unfold storeSet
  rw [List.filterMap_cons, hhead, filterMap_filter_of_none st p sel h]

/-- After overwriting the record at `p`, no listed record selected by a
property that forces path `p` survives except the new one. -/
theorem filter_filterMap_of_path {α : Type} (st : Store) (p : Path)
    (sel : Path × Entity → Option α) (q : α → Bool)
    (h : ∀ pe ∈ st, ∀ r, sel pe = some r → q r = true → pe.1 = p) :
    ((st.filter (fun e => !(e.1 == p))).filterMap sel).filter q = [] := by
  induction st with
  | nil => rfl
  | cons e st ih =>
    have ih2 := ih (fun pe hpe r hr hq => h pe (List.mem_cons_of_mem e hpe) r hr hq)
    by_cases hep : e.1 = p
    · have hb : (e.1 == p) = true := by simp [hep]
      simp [List.filter_cons, hb, ih2]
    · have hb : (e.1 == p) = false := by simp [hep]
      simp only [List.filter_cons, hb, Bool.not_false, if_pos, List.filterMap_cons]
      cases hse : sel e with
      | none => exact ih2
      | some r =>
        have hqr : q r = false := by
          cases hq : q r with
          | false => rfl
          | true => exact absurd (h e (List.mem_cons_self e st) r hse hq) hep
        simp [List.filter_cons, hqr, ih2]

/-- Deleting a subtree empties any listing whose records all live inside
that subtree. -/
theorem filterMap_deleteTree {α : Type} (st : Store) (pre : Path)
    (sel : Path × Entity → Option α)
    (h : ∀ pe ∈ st, ∀ r, sel pe = some r → within pre pe.1 = true) :
    (storeDeleteTree st pre).filterMap sel = [] := by
  unfold storeDeleteTree
  induction st with
  | nil => rfl
  | cons e st ih =>
    have ih2 := ih (fun pe hpe r hr => h pe (List.mem_cons_of_mem e hpe) r hr)
    by_cases hw : within pre e.1 = true
    · simp [List.filter_cons, hw, ih2]
    · have hwf : within pre e.1 = false := by simpa using hw
      simp only [List.filter_cons, hwf, Bool.not_false, if_pos, List.filterMap_cons]
      cases hse : sel e with
      | none => exact ih2
      | some r => exact absurd (h e (List.mem_cons_self e st) r hse) hw

theorem parametersOf_after_set (root proj eid n : String) (v : Value) (st : Store) :
    (parametersOf ⟨root, storeSet st (childPath root proj eid .parameter n)
        (.parameterE ⟨n, v⟩)⟩ proj eid).filter (fun pr => pr.name == n) = [⟨n, v⟩] := by
  have htail := filter_filterMap_of_path st (childPath root proj eid .parameter n)
    (fun pe => match pe.2 with
      | .parameterE pr =>
        if pe.1 == childPath root proj eid .parameter pr.name then some pr else none
      | _ => none)
    (fun pr => pr.name == n)
    (by
      intro pe hpe r hr hq
      cases pe with
      | mk pth ent =>
        cases ent
        case parameterE pr =>
          simp only [] at hr
          by_cases hb : (pth == childPath root proj eid .parameter pr.name) = true
          · rw [if_pos hb] at hr
            cases hr
            have hpth : pth = childPath root proj eid .parameter r.name := by
              simpa using hb
            have hn : r.name = n := by simpa using hq
            rw [hpth, hn]
          · rw [if_neg hb] at hr
            exact absurd hr (by simp)
        all_goals exact Option.noConfusion hr)
  unfold parametersOf storeSet
  simp only [List.filterMap_cons]
  have hself : ((childPath root proj eid ChildKind.parameter n,
      Entity.parameterE ⟨n, v⟩).1 ==
        childPath root proj eid ChildKind.parameter (⟨n, v⟩ : ParameterRec).name) = true := by
    simp
  simp only [hself, if_pos]
  unfold storeSet at htail
  simp only [List.filter_cons_of_pos, List.filter_cons]
  have hq : ((⟨n, v⟩ : ParameterRec).name == n) = true := by simp
  simp only [hq, if_pos, List.cons.injEq, true_and]
  exact htail

theorem metricsOf_after_set (root proj eid n : String) (v : Value) (hib : Option Bool)
    (st : Store) :
    (metricsOf ⟨root, storeSet st (childPath root proj eid .metric n)
        (.metricE ⟨n, v, hib⟩)⟩ proj eid).filter (fun m => m.name == n) = [⟨n, v, hib⟩] := by
  have htail := filter_filterMap_of_path st (childPath root proj eid .metric n)
    (fun pe => match pe.2 with
      | .metricE m =>
        if pe.1 == childPath root proj eid .metric m.name then some m else none
      | _ => none)
    (fun m => m.name == n)
    (by
      intro pe hpe r hr hq
      cases pe with
      | mk pth ent =>
        cases ent
        case metricE m =>
          simp only [] at hr
          by_cases hb : (pth == childPath root proj eid .metric m.name) = true
          · rw [if_pos hb] at hr
            cases hr
            have hpth : pth = childPath root proj eid .metric r.name := by
              simpa using hb
            have hn : r.name = n := by simpa using hq
            rw [hpth, hn]
          · rw [if_neg hb] at hr
            exact absurd hr (by simp)
        all_goals exact Option.noConfusion hr)
  unfold metricsOf storeSet
  simp only [List.filterMap_cons]
  have hself : ((childPath root proj eid ChildKind.metric n,
      Entity.metricE ⟨n, v, hib⟩).1 ==
        childPath root proj eid ChildKind.metric (⟨n, v, hib⟩ : MetricRec).name) = true := by
    simp
  simp only [hself, if_pos]
  unfold storeSet at htail
  simp only [List.filter_cons]
  have hq : ((⟨n, v, hib⟩ : MetricRec).name == n) = true := by simp
  simp only [hq, if_pos, List.cons.injEq, true_and]
  exact htail

theorem featuresOf_after_set (root proj eid : String) (fr : FeatureRec) (st : Store)
    (hfresh : fr.id ∉ (featuresOf ⟨root, st⟩ proj eid).map (fun f => f.id)) :
    featuresOf ⟨root, storeSet st (childPath root proj eid .feature fr.id)
        (.featureE fr)⟩ proj eid = fr :: featuresOf ⟨root, st⟩ proj eid := by
  have h := filterMap_storeSet st (childPath root proj eid .feature fr.id) (.featureE fr)
    (fun pe => match pe.2 with
      | .featureE f => if pe.1 == childPath root proj eid .feature f.id then some f else none
      | _ => none) fr
    (by simp)
    (by
      intro pe hpe hp
      cases pe with
      | mk pth ent =>
        cases ent
        case featureE f =>
          simp only []
          by_cases hb : (pth == childPath root proj eid .feature f.id) = true
          · exfalso
            have hpth : pth = childPath root proj eid .feature f.id := by simpa using hb
            have hid : f.id = fr.id := by
              have heq : childPath root proj eid .feature f.id =
                  childPath root proj eid .feature fr.id := by
                rw [← hpth]
                exact hp
              simpa [childPath, Identity.rawPath] using heq
            apply hfresh
            have hmem : f ∈ featuresOf ⟨root, st⟩ proj eid := by
              unfold featuresOf
              exact List.mem_filterMap.mpr ⟨(pth, .featureE f), hpe, by simp [hb]⟩
            rw [← hid]
            exact List.mem_map.mpr ⟨f, hmem, rfl⟩
          · rw [if_neg hb]
        all_goals rfl)
  unfold featuresOf
  exact h

theorem artifactsOf_after_set (root proj eid : String) (ar : ArtifactRec) (st : Store)
    (hfresh : ar.id ∉ (artifactsOf ⟨root, st⟩ proj eid).map (fun a => a.id)) :
    artifactsOf ⟨root, storeSet st (childPath root proj eid .artifact ar.id)
        (.artifactE ar)⟩ proj eid = ar :: artifactsOf ⟨root, st⟩ proj eid := by
  have h := filterMap_storeSet st (childPath root proj eid .artifact ar.id) (.artifactE ar)
    (fun pe => match pe.2 with
      | .artifactE a => if pe.1 == childPath root proj eid .artifact a.id then some a else none
      | _ => none) ar
    (by simp)
    (by
      intro pe hpe hp
      cases pe with
      | mk pth ent =>
        cases ent
        case artifactE a =>
          simp only []
          by_cases hb : (pth == childPath root proj eid .artifact a.id) = true
          · exfalso
            have hpth : pth = childPath root proj eid .artifact a.id := by simpa using hb
            have hid : a.id = ar.id := by
              have heq : childPath root proj eid .artifact a.id =
                  childPath root proj eid .artifact ar.id := by
                rw [← hpth]
                exact hp
              simpa [childPath, Identity.rawPath] using heq
            apply hfresh
            have hmem : a ∈ artifactsOf ⟨root, st⟩ proj eid := by
              unfold artifactsOf
              exact List.mem_filterMap.mpr ⟨(pth, .artifactE a), hpe, by simp [hb]⟩
            rw [← hid]
            exact List.mem_map.mpr ⟨a, hmem, rfl⟩
          · rw [if_neg hb]
        all_goals rfl)
  unfold artifactsOf
  exact h

theorem dataframesOf_after_set (root proj eid : String) (dr : DataframeRec) (st : Store)
    (hfresh : dr.id ∉ (dataframesOf ⟨root, st⟩ proj eid).map (fun d => d.id)) :
    dataframesOf ⟨root, storeSet st (childPath root proj eid .dataframe dr.id)
        (.dataframeE dr)⟩ proj eid = dr :: dataframesOf ⟨root, st⟩ proj eid := by
  have h := filterMap_storeSet st (childPath root proj eid .dataframe dr.id) (.dataframeE dr)
    (fun pe => match pe.2 with
      | .dataframeE d => if pe.1 == childPath root proj eid .dataframe d.id then some d else none
      | _ => none) dr
    (by simp)
    (by
      intro pe hpe hp
      cases pe with
      | mk pth ent =>
        cases ent
        case dataframeE d =>
          simp only []
          by_cases hb : (pth == childPath root proj eid .dataframe d.id) = true
          · exfalso
            have hpth : pth = childPath root proj eid .dataframe d.id := by simpa using hb
            have hid : d.id = dr.id := by
              have heq : childPath root proj eid .dataframe d.id =
                  childPath root proj eid .dataframe dr.id := by
                rw [← hpth]
                exact hp
              simpa [childPath, Identity.rawPath] using heq
            apply hfresh
            have hmem : d ∈ dataframesOf ⟨root, st⟩ proj eid := by
              unfold dataframesOf
              exact List.mem_filterMap.mpr ⟨(pth, .dataframeE d), hpe, by simp [hb]⟩
            rw [← hid]
            exact List.mem_map.mpr ⟨d, hmem, rfl⟩
          · rw [if_neg hb]
        all_goals rfl)
  unfold dataframesOf
  exact h

theorem experimentsOf_after_set (root proj : String) (ex : ExperimentRec) (st : Store)
    (hfresh : ex.id ∉ (experimentsOf ⟨root, st⟩ proj).map (fun e => e.id)) :
    experimentsOf ⟨root, storeSet st (experimentPath root proj ex.id)
        (.experimentE ex)⟩ proj = ex :: experimentsOf ⟨root, st⟩ proj := by
  have h := filterMap_storeSet st (experimentPath root proj ex.id) (.experimentE ex)
    (fun pe => match pe.2 with
      | .experimentE e => if pe.1 == experimentPath root proj e.id then some e else none
      | _ => none) ex
    (by simp)
    (by
      intro pe hpe hp
      cases pe with
      | mk pth ent =>
        cases ent
        case experimentE e =>
          simp only []
          by_cases hb : (pth == experimentPath root proj e.id) = true
          · exfalso
            have hpth : pth = experimentPath root proj e.id := by simpa using hb
            have hid : e.id = ex.id := by
              have heq : experimentPath root proj e.id = experimentPath root proj ex.id := by
                rw [← hpth]
                exact hp
              simpa [experimentPath, Identity.rawPath] using heq
            apply hfresh
            have hmem : e ∈ experimentsOf ⟨root, st⟩ proj := by
              unfold experimentsOf
              exact List.mem_filterMap.mpr ⟨(pth, .experimentE e), hpe, by simp [hb]⟩
            rw [← hid]
            exact List.mem_map.mpr ⟨e, hmem, rfl⟩
          · rw [if_neg hb]
        all_goals rfl)
  unfold experimentsOf
  exact h

/-- C5: logging a parameter with the same name twice to the same
experiment (with different values) leaves exactly one parameter record
with that name, bearing the value of the second call (last-write-wins by
name for parameters and metrics), whereas each feature, artifact, or
dataframe log call creates a distinct record even under a name
collision. -/
theorem claimC5_kind_specific_overwrite (s : RepoState) (proj eid n : String)
    (v1 v2 : Value) :
    (∀ pr1 s1 pr2 s2, logParameter s proj eid n v1 = .ok (pr1, s1) →
      logParameter s1 proj eid n v2 = .ok (pr2, s2) →
      (parametersOf s2 proj eid).filter (fun pr => pr.name == n) = [⟨n, v2⟩]) ∧
    (∀ hib1 hib2 m1 t1 m2 t2, logMetric s proj eid n v1 hib1 = .ok (m1, t1) →
      logMetric t1 proj eid n v2 hib2 = .ok (m2, t2) →
      (metricsOf t2 proj eid).filter (fun m => m.name == n) = [⟨n, v2, hib2⟩]) ∧
    (∀ imp cands b fr s2, logFeature s proj eid n imp cands b = .ok (fr, s2) →
      featuresOf s2 proj eid = fr :: featuresOf s proj eid ∧ fr.name = n) ∧
    (∀ payload ct cands b ar s2, logArtifact s proj eid n payload ct cands b = .ok (ar, s2) →
      artifactsOf s2 proj eid = ar :: artifactsOf s proj eid ∧ ar.name = n) ∧
    (∀ cols cands b dr s2, logDataframe s proj eid n cols cands b = .ok (dr, s2) →
      dataframesOf s2 proj eid = dr :: dataframesOf s proj eid ∧ dr.name = n) := by
  refine ⟨?_, ?_, ?_, ?_, ?_⟩
  · intro pr1 s1 pr2 s2 h1 h2
    unfold logParameter at h2
    cases hget : storeGet s1.store (experimentPath s1.root proj eid) with
    | none => rw [hget] at h2; exact absurd h2 (by simp)
    | some e =>
      rw [hget] at h2
      simp only [Except.ok.injEq, Prod.mk.injEq] at h2
      obtain ⟨hpr, hs2⟩ := h2
      rw [← hs2]
      exact parametersOf_after_set s1.root proj eid n v2 s1.store
  · intro hib1 hib2 m1 t1 m2 t2 h1 h2
    unfold logMetric at h2
    cases hget : storeGet t1.store (experimentPath t1.root proj eid) with
    | none => rw [hget] at h2; exact absurd h2 (by simp)
    | some e =>
      rw [hget] at h2
      simp only [Except.ok.injEq, Prod.mk.injEq] at h2
      obtain ⟨hm, ht2⟩ := h2
      rw [← ht2]
      exact metricsOf_after_set t1.root proj eid n v2 hib2 t1.store
  · intro imp cands b fr s2 h
    unfold logFeature at h
    cases hget : storeGet s.store (experimentPath s.root proj eid) with
    | none => rw [hget] at h; exact absurd h (by simp)
    | some e =>
      rw [hget] at h
      cases hpick : pickFreshId ((featuresOf s proj eid).map (fun f => f.id)) cands b with
      | none => rw [hpick] at h; exact absurd h (by simp)
      | some fid =>
        rw [hpick] at h
        simp only [Except.ok.injEq, Prod.mk.injEq] at h
        obtain ⟨hfr, hs2⟩ := h
        have hfresh : fid ∉ (featuresOf s proj eid).map (fun f => f.id) := by
          have := pickFreshId_fresh _ cands b fid hpick
          simpa using this
        constructor
        · rw [← hs2, ← hfr]
          exact featuresOf_after_set s.root proj eid ⟨fid, n, imp⟩ s.store hfresh
        · rw [← hfr]
  · intro payload ct cands b ar s2 h
    unfold logArtifact at h
    cases hget : storeGet s.store (experimentPath s.root proj eid) with
    | none => rw [hget] at h; exact absurd h (by simp)
    | some e =>
      rw [hget] at h
      cases hpick : pickFreshId ((artifactsOf s proj eid).map (fun a => a.id)) cands b with
      | none => rw [hpick] at h; exact absurd h (by simp)
      | some aid =>
        rw [hpick] at h
        simp only [Except.ok.injEq, Prod.mk.injEq] at h
        obtain ⟨har, hs2⟩ := h
        have hfresh : aid ∉ (artifactsOf s proj eid).map (fun a => a.id) := by
          have := pickFreshId_fresh _ cands b aid hpick
          simpa using this
        constructor
        · rw [← hs2, ← har]
          exact artifactsOf_after_set s.root proj eid ⟨aid, n, payload, ct⟩ s.store hfresh
        · rw [← har]
  · intro cols cands b dr s2 h
    unfold logDataframe at h
    cases hget : storeGet s.store (experimentPath s.root proj eid) with
    | none => rw [hget] at h; exact absurd h (by simp)
    | some e =>
      rw [hget] at h
      cases hpick : pickFreshId ((dataframesOf s proj eid).map (fun d => d.id)) cands b with
      | none => rw [hpick] at h; exact absurd h (by simp)
      | some did =>
        rw [hpick] at h
        simp only [Except.ok.injEq, Prod.mk.injEq] at h
        obtain ⟨hdr, hs2⟩ := h
        have hfresh : did ∉ (dataframesOf s proj eid).map (fun d => d.id) := by
          have := pickFreshId_fresh _ cands b did hpick
          simpa using this
        constructor
        · rw [← hs2, ← hdr]
          exact dataframesOf_after_set s.root proj eid ⟨did, n, cols⟩ s.store hfresh
        · rw [← hdr]

/-- C6: `query_experiments(project, tags, match_mode)` with match_mode
"any" returns exactly the experiments of the project whose tag set
contains at least one of the requested tags (and excludes all others,
regardless of what other tags they hold); with match_mode "all" it
returns exactly those having every requested tag; and with an empty tag
list it returns all experiments in the project. -/
theorem claimC6_query_experiments (s : RepoState) (proj : String)
    (tags : List String) (e : ExperimentRec) (hne : tags ≠ []) :
    (e ∈ queryExperiments s proj tags .anyOf ↔
      e ∈ experimentsOf s proj ∧ ∃ t ∈ tags, t ∈ e.tags) ∧
    (e ∈ queryExperiments s proj tags .allOf ↔
      e ∈ experimentsOf s proj ∧ ∀ t ∈ tags, t ∈ e.tags) ∧
    (∀ mode, queryExperiments s proj [] mode = experimentsOf s proj) := by
  have hie : tags.isEmpty = false := by
    cases tags with
    | nil => exact absurd rfl hne
    | cons a l => rfl
  refine ⟨?_, ?_, ?_⟩
  · unfold queryExperiments
    rw [hie]
    simp [List.mem_filter, tagMatch, List.any_eq_true]
  · unfold queryExperiments
    rw [hie]
    simp [List.mem_filter, tagMatch, List.all_eq_true]
  · intro mode
    rfl

theorem mergeTags_cons (xs : List String) (y : String) (ys : List String) :
    mergeTags xs (y :: ys) = mergeTags (if xs.contains y then xs else xs ++ [y]) ys := rfl

theorem mem_mergeTags_of_mem_left (ys : List String) :
    ∀ xs t, t ∈ xs → t ∈ mergeTags xs ys := by
  induction ys with
  | nil => intro xs t h; exact h
  | cons y ys ih =>
    intro xs t h
    rw [mergeTags_cons]
    apply ih
    by_cases hc : xs.contains y
    · rw [if_pos hc]; exact h
    · rw [if_neg hc]; exact List.mem_append_left _ h

theorem mem_mergeTags_of_mem_right (ys : List String) :
    ∀ xs t, t ∈ ys → t ∈ mergeTags xs ys := by
  induction ys with
  | nil => intro xs t h; exact absurd h (List.not_mem_nil t)
  | cons y ys ih =>
    intro xs t h
    rw [mergeTags_cons]
    rcases List.mem_cons.mp h with rfl | hmem
    · apply mem_mergeTags_of_mem_left
      by_cases hc : xs.contains t
      · rw [if_pos hc]
        simpa using hc
      · rw [if_neg hc]
        exact List.mem_append_right _ (List.mem_singleton.mpr rfl)
    · exact ih _ t hmem

theorem mergeTags_of_subset (ys : List String) :
    ∀ xs, (∀ t ∈ ys, t ∈ xs) → mergeTags xs ys = xs := by
  induction ys with
  | nil => intro xs _; rfl
  | cons y ys ih =>
    intro xs h
    rw [mergeTags_cons]
    have hy : xs.contains y = true := by
      simpa using h y (List.mem_cons_self y ys)
    rw [if_pos hy]
    exact ih xs (fun t ht => h t (List.mem_cons_of_mem y ht))

theorem mergeTags_idem (xs ys : List String) :
    mergeTags (mergeTags xs ys) ys = mergeTags xs ys :=
  mergeTags_of_subset ys (mergeTags xs ys) (fun t ht => mem_mergeTags_of_mem_right ys xs t ht)

theorem storeSet_idem (st : Store) (p : Path) (v : Entity) :
    storeSet (storeSet st p v) p v = storeSet st p v := by
  unfold storeSet
  simp only [List.filter_cons]
  have hp : ((p, v).1 == p) = true := by simp
  simp only [hp, Bool.not_true, if_neg (by simp : ¬ (false = true)), List.filter_filter]
  simp

/-- C7: for every experiment and tag set `T`, calling `add_tags` twice
with `T` yields the same tag set as a single call; adding an
already-present tag is a no-op; and `remove_tags` computes the set
difference independently. -/
theorem claimC7_tag_idempotence (s : RepoState) (proj eid : String) (T : List String) :
    (∀ e1 s1 e2 s2, addTags s proj eid T = .ok (e1, s1) →
      addTags s1 proj eid T = .ok (e2, s2) → e2.tags = e1.tags ∧ s2 = s1) ∧
    (∀ xs : List String, ∀ t ∈ xs, mergeTags xs [t] = xs) ∧
    (∀ ex e1 s1, storeGet s.store (experimentPath s.root proj eid) = some (.experimentE ex) →
      removeTags s proj eid T = .ok (e1, s1) →
      ∀ t, t ∈ e1.tags ↔ t ∈ ex.tags ∧ t ∉ T) := by
  refine ⟨?_, ?_, ?_⟩
  · intro e1 s1 e2 s2 h1 h2
    unfold addTags at h1
    cases hget : storeGet s.store (experimentPath s.root proj eid) with
    | none => rw [hget] at h1; exact absurd h1 (by simp)
    | some ent =>
      rw [hget] at h1
      cases ent
      case experimentE ex =>
        simp only [Except.ok.injEq, Prod.mk.injEq] at h1
        obtain ⟨he1, hs1⟩ := h1
        unfold addTags at h2
        have hget2 : storeGet s1.store (experimentPath s1.root proj eid) =
            some (.experimentE e1) := by
          rw [← hs1, ← he1]
          exact storeGet_set _ _ _
        rw [hget2] at h2
        simp only [Except.ok.injEq, Prod.mk.injEq] at h2
        obtain ⟨he2, hs2⟩ := h2
        have htags : e1.tags = mergeTags ex.tags T := by rw [← he1]
        have he2e1 : e2 = e1 := by
          rw [← he2, ← he1]
          simp [mergeTags_idem]
        refine ⟨by rw [he2e1], ?_⟩
        rw [← hs2, he2, he2e1, ← hs1, ← he1]
        simp [storeSet_idem]
      all_goals first
        | exact absurd h1 (by simp)
  · intro xs t ht
    exact mergeTags_of_subset [t] xs (fun t' ht' => by
      rw [List.mem_singleton.mp ht']
      exact ht)
  · intro ex e1 s1 hget h
    unfold removeTags at h
    rw [hget] at h
    simp only [Except.ok.injEq, Prod.mk.injEq] at h
    obtain ⟨he1, hs1⟩ := h
    intro t
    rw [← he1]
    simp [List.mem_filter]

theorem within_of_within_append (xs ys q : Path) :
    within (xs ++ ys) q = true → within xs q = true := by
  induction xs generalizing q with
  | nil => intro _; rfl
  | cons a xs ih =>
    cases q with
    | nil => intro h; exact absurd h (by simp [within])
    | cons b q' =>
      intro h
      simp only [List.cons_append, within, Bool.and_eq_true] at h ⊢
      exact ⟨h.1, ih q' h.2⟩

theorem storeDeleteTree_idem (st : Store) (pre : Path) :
    storeDeleteTree (storeDeleteTree st pre) pre = storeDeleteTree st pre := by
  unfold storeDeleteTree
  rw [List.filter_filter]
  simp

/-- C8: `delete(entity)` recursively removes the entity's whole storage
subtree, so after deleting an experiment a `list_children` on any child
kind of that experiment returns an empty sequence; and delete is
idempotent: a delete of an already-absent entity is a silent no-op,
never an error. -/
theorem claimC8_delete_subtree_idempotent (s : RepoState) (proj eid : String) :
    (∀ s2, deleteExperiment s proj eid = .ok s2 →
      (∀ k : ChildKind, listChildren s2 proj eid k = []) ∧
      deleteExperiment s2 proj eid = .ok s2) ∧
    (∃ s2, deleteExperiment s proj eid = .ok s2) := by
  constructor
  · intro s2 h
    unfold deleteExperiment at h
    simp only [Except.ok.injEq] at h
    constructor
    · intro k
      rw [← h]
      unfold listChildren
      apply filterMap_deleteTree
      intro pe hpe r hr
      by_cases hw : within ((⟨s.root, storeDeleteTree s.store (experimentDir s.root proj eid)⟩ :
          RepoState).root :: proj :: "experiments" :: eid :: [k.dirName]) pe.1 = true
      · have hsplit : (⟨s.root, storeDeleteTree s.store (experimentDir s.root proj eid)⟩ :
            RepoState).root :: proj :: "experiments" :: eid :: [k.dirName] =
            experimentDir s.root proj eid ++ [k.dirName] := rfl
        rw [hsplit] at hw
        exact within_of_within_append _ _ _ hw
      · rw [if_neg hw] at hr
        exact absurd hr (by simp)
    · rw [← h]
      unfold deleteExperiment
      simp only [Except.ok.injEq]
      have : experimentDir (⟨s.root, storeDeleteTree s.store
          (experimentDir s.root proj eid)⟩ : RepoState).root proj eid =
          experimentDir s.root proj eid := rfl
      rw [this]
      simp [storeDeleteTree_idem]
  · exact ⟨_, rfl⟩

theorem createExperiment_ok (s : RepoState) (proj : String) (f : ExperimentFields)
    (cands : List String) (b : Nat) (ex : ExperimentRec) (s2 : RepoState)
    (h : createExperiment s proj f cands b = .ok (ex, s2)) :
    experimentsOf s2 proj = ex :: experimentsOf s proj ∧
    ex.id ∉ (experimentsOf s proj).map (fun e => e.id) := by
  unfold createExperiment at h
  cases hget : storeGet s.store (projectPath s.root proj) with
  | none => rw [hget] at h; exact absurd h (by simp)
  | some e =>
    rw [hget] at h
    cases hpick : pickFreshId ((experimentsOf s proj).map (fun e => e.id)) cands b with
    | none => rw [hpick] at h; exact absurd h (by simp)
    | some eid =>
      rw [hpick] at h
      simp only [Except.ok.injEq, Prod.mk.injEq] at h
      obtain ⟨hex, hs2⟩ := h
      have hfresh : eid ∉ (experimentsOf s proj).map (fun e => e.id) := by
        have := pickFreshId_fresh _ cands b eid hpick
        simpa using this
      have hexid : ex.id = eid := by rw [← hex]
      constructor
      · rw [← hs2, ← hex]
        exact experimentsOf_after_set s.root proj
          ⟨eid, proj, f.name, f.modelName, f.trainingMetadata, f.tags, f.commitHash⟩
          s.store hfresh
      · rw [hexid]
        exact hfresh

/-- Is a result a success? -/
def exceptIsOk : Except RubiconError ExperimentRec → Bool
  | .ok _ => true
  | .error _ => false

/-- One interleaving of concurrent `create_experiment` calls against one
project.  Modelled from the spec (§4.4, §5): no in-process lock
coordinates the writers; each call is atomic at its path-write
serialization point, so a concurrent execution of the calls is some
serialization order of them — `runCreates` runs the calls in the order
given, and the theorems quantify over every order.  Each call carries
its own id-generator stream and retry bound. -/
def createStep (proj : String) (c : ExperimentFields × List String × Nat)
    (s : RepoState) : RepoState × Except RubiconError ExperimentRec :=
  match createExperiment s proj c.1 c.2.1 c.2.2 with
  | .ok r => (r.2, .ok r.1)
  | .error err => (s, .error err)

def runCreates (proj : String) : List (ExperimentFields × List String × Nat) → RepoState →
    RepoState × List (Except RubiconError ExperimentRec)
  | [], s => (s, [])
  | c :: cs, s =>
    ((runCreates proj cs (createStep proj c s).1).1,
      (createStep proj c s).2 :: (runCreates proj cs (createStep proj c s).1).2)

theorem runCreates_spec (proj : String) :
    ∀ (cs : List (ExperimentFields × List String × Nat)) (s : RepoState),
      ((runCreates proj cs s).2.all exceptIsOk) = true →
      (experimentsOf (runCreates proj cs s).1 proj).length
          = (experimentsOf s proj).length + cs.length ∧
      (((experimentsOf s proj).map (fun e => e.id)).Nodup →
        ((experimentsOf (runCreates proj cs s).1 proj).map (fun e => e.id)).Nodup) := by
  intro cs
  induction cs with
  | nil =>
    intro s _
    exact ⟨rfl, fun h => h⟩
  | cons c cs ih =>
    intro s hall
    rw [runCreates] at hall ⊢
    cases hc : createExperiment s proj c.1 c.2.1 c.2.2 with
    | error err =>
      have hstep : createStep proj c s = (s, .error err) := by
        unfold createStep
        rw [hc]
      rw [hstep] at hall
      simp [exceptIsOk] at hall
    | ok r =>
      have hstep : createStep proj c s = (r.2, .ok r.1) := by
        unfold createStep
        rw [hc]
      rw [hstep] at hall ⊢
      dsimp only [] at hall ⊢
      simp only [List.all_cons, Bool.and_eq_true] at hall
      have htail := hall.2
      obtain ⟨hcons, hfresh⟩ := createExperiment_ok s proj c.1 c.2.1 c.2.2 r.1 r.2 (by rw [hc])
      have ih2 := ih r.2 htail
      constructor
      · rw [ih2.1, hcons]
        simp only [List.length_cons]
        omega
      · intro hnd
        apply ih2.2
        rw [hcons]
        simp only [List.map_cons, List.nodup_cons]
        exact ⟨hfresh, hnd⟩

/-- C1: if 12 experiments are logged concurrently from 12 independent
execution units to one project, each via `create_experiment`, then
exactly 12 distinct experiments are visible afterwards via
`list_children`/`query_experiments`, and no two of them share an id.
`calls` ranges over every serialization order of the units' atomic
creates, so every interleaving is covered; the hypothesis `hok` states
that each unit's call succeeded (its id generator produced a fresh id
within the retry bound). -/
theorem claimC1_twelve_concurrent_creates (s : RepoState) (proj : String)
    (calls : List (ExperimentFields × List String × Nat))
    (h0 : experimentsOf s proj = [])
    (h12 : calls.length = 12)
    (hok : ((runCreates proj calls s).2.all exceptIsOk) = true) :
    (experimentsOf (runCreates proj calls s).1 proj).length = 12 ∧
    ((experimentsOf (runCreates proj calls s).1 proj).map (fun e => e.id)).Nodup ∧
    ∀ mode, (queryExperiments (runCreates proj calls s).1 proj [] mode).length = 12 := by
  obtain ⟨hlen, hnd⟩ := runCreates_spec proj calls s hok
  rw [h0] at hlen
  simp only [List.length_nil, Nat.zero_add, h12] at hlen
  refine ⟨hlen, ?_, ?_⟩
  · apply hnd
    rw [h0]
    exact List.nodup_nil
  · intro mode
    have hq : queryExperiments (runCreates proj calls s).1 proj [] mode =
        experimentsOf (runCreates proj calls s).1 proj := rfl
    rw [hq, hlen]

theorem runPrims_append (xs ys : List PrimOp) (s : RepoState) :
    runPrims (xs ++ ys) s =
      ((runPrims ys (runPrims xs s).1).1,
        (runPrims xs s).2 ++ (runPrims ys (runPrims xs s).1).2) := by
  induction xs generalizing s with
  | nil => simp [runPrims]
  | cons op ops ih =>
    simp only [List.cons_append, runPrims, List.append_eq, ih, List.append_assoc]

theorem gatherRun_eq_syncRun (b : Backend) (hb : b.suspends = false) :
    ∀ (tasks : List AsyncTask) (s : RepoState), gatherRun b tasks s = syncRun tasks s := by
  intro tasks
  induction tasks with
  | nil =>
    intro s
    rw [gatherRun.eq_def]
    rfl
  | cons t ts ih =>
    intro s
    rw [gatherRun.eq_def, hb]
    show ((gatherRun b ts (runPrims t s).1).1,
        (runPrims t s).2 ++ (gatherRun b ts (runPrims t s).1).2) = syncRun (t :: ts) s
    unfold syncRun
    rw [List.flatten_cons, runPrims_append, ih]
    rfl

/-- C9: when the asynchronous entity-client variant is selected against
a filesystem or in-memory backend, it is not rejected but degrades to
sequential execution, producing the same results for every operation as
the synchronous variant would: the cooperative gather loop never finds a
suspension point, so each unit of work runs to completion in issue
order, exactly as the synchronous client. -/
theorem claimC9_async_degrades_to_sequential (tasks : List AsyncTask) (s : RepoState) :
    asyncSelectable .filesystem = true ∧
    asyncSelectable .memory = true ∧
    gatherRun .filesystem tasks s = syncRun tasks s ∧
    gatherRun .memory tasks s = syncRun tasks s :=
  ⟨rfl, rfl, gatherRun_eq_syncRun .filesystem rfl tasks s,
    gatherRun_eq_syncRun .memory rfl tasks s⟩

/-! ## Concrete witness states -/

/-- Empty repository rooted at "r". -/
def demoEmpty : RepoState := ⟨"r", []⟩

/-- A repository holding project "p" and experiment "e" under it. -/
def demoProjExp : RepoState :=
  ⟨"r", [(experimentPath "r" "p" "e", .experimentE ⟨"e", "p", none, none, none, ["a"], none⟩),
         (projectPath "r" "p", .projectE ⟨"p", none, none⟩)]⟩

/-- Experiment fields used by the demo creates. -/
def demoFields : ExperimentFields := ⟨none, none, none, [], none⟩

/-- Twelve create calls, each with its own one-shot id stream. -/
def demoCalls : List (ExperimentFields × List String × Nat) :=
  [(demoFields, ["a"], 1), (demoFields, ["b"], 1), (demoFields, ["c"], 1),
   (demoFields, ["d"], 1), (demoFields, ["e"], 1), (demoFields, ["f"], 1),
   (demoFields, ["g"], 1), (demoFields, ["h"], 1), (demoFields, ["i"], 1),
   (demoFields, ["j"], 1), (demoFields, ["k"], 1), (demoFields, ["l"], 1)]

/-- A repository holding only project "p". -/
def demoProjOnly : RepoState := ⟨"r", [(projectPath "r" "p", .projectE ⟨"p", none, none⟩)]⟩

theorem claimC3_witness :
    (Identity.projectId "r" "iris").pathOf = some ["r", "iris", "metadata"] ∧
    Identity.projectId "r" "iris" = Identity.projectId "r" "iris" :=
  ⟨by decide,
    claimC3_path_mapping_deterministic_injective.2 (Identity.projectId "r" "iris")
      (Identity.projectId "r" "iris") ["r", "iris", "metadata"] (by decide) (by decide)⟩

/-- State after creating project "Iris Model" in the empty repository. -/
def demoIris : RepoState :=
  ⟨"r", storeSet [] (projectPath "r" "Iris Model")
    (.projectE ⟨"Iris Model", some "an iris classifier", none⟩)⟩

theorem claimC4_witness :
    hasSep "Iris Model" = false ∧
    (getProject demoIris "Iris Model" = .ok ⟨"Iris Model", some "an iris classifier", none⟩ ∧
      (⟨"Iris Model", some "an iris classifier", none⟩ : ProjectRec).name = "Iris Model" ∧
      (⟨"Iris Model", some "an iris classifier", none⟩ : ProjectRec).description =
        some "an iris classifier") :=
  ⟨by decide,
    (claimC4_create_get_project demoEmpty "Iris Model" (some "an iris classifier") none
      (by decide)).2.2 ⟨"Iris Model", some "an iris classifier", none⟩ demoIris (by rfl)⟩

/-- State after `get_or_create_project "N"` in the empty repository. -/
def demoN : RepoState :=
  ⟨"r", storeSet [] (projectPath "r" "N") (.projectE ⟨"N", some "d", none⟩)⟩

theorem claimC10_witness :
    hasSep "N" = false ∧
    getOrCreateProject demoEmpty "N" (some "d") none = .ok (⟨"N", some "d", none⟩, demoN) ∧
    getOrCreateProject demoN "N" (some "d2") none = .ok (⟨"N", some "d", none⟩, demoN) :=
  ⟨by decide, by rfl,
    (claimC10_get_or_create_project demoEmpty "N" (some "d") (some "d2") none none
      (by decide)).2.2 ⟨"N", some "d", none⟩ demoN (by rfl)⟩

/-- State after logging parameter "x" := 1 to the demo experiment. -/
def demoP1 : RepoState :=
  ⟨"r", storeSet demoProjExp.store (childPath "r" "p" "e" .parameter "x")
    (.parameterE ⟨"x", .vint 1⟩)⟩

/-- State after re-logging parameter "x" := 2. -/
def demoP2 : RepoState :=
  ⟨"r", storeSet demoP1.store (childPath "r" "p" "e" .parameter "x")
    (.parameterE ⟨"x", .vint 2⟩)⟩

theorem claimC5_witness :
    logParameter demoProjExp "p" "e" "x" (.vint 1) = .ok (⟨"x", .vint 1⟩, demoP1) ∧
    logParameter demoP1 "p" "e" "x" (.vint 2) = .ok (⟨"x", .vint 2⟩, demoP2) ∧
    (parametersOf demoP2 "p" "e").filter (fun pr => pr.name == "x") = [⟨"x", .vint 2⟩] :=
  ⟨by rfl, by rfl,
    (claimC5_kind_specific_overwrite demoProjExp "p" "e" "x" (.vint 1) (.vint 2)).1
      ⟨"x", .vint 1⟩ demoP1 ⟨"x", .vint 2⟩ demoP2 (by rfl) (by rfl)⟩

/-- An experiment tagged "success" (among others). -/
def demoSuccessExp : ExperimentRec := ⟨"e1", "p", none, none, none, ["success", "extra"], none⟩

/-- A project with one "success"-tagged and one "other"-tagged experiment. -/
def demoTagged : RepoState :=
  ⟨"r", [(experimentPath "r" "p" "e1", .experimentE demoSuccessExp),
         (experimentPath "r" "p" "e2", .experimentE ⟨"e2", "p", none, none, none, ["other"], none⟩),
         (projectPath "r" "p", .projectE ⟨"p", none, none⟩)]⟩

theorem claimC6_witness :
    (["success"] : List String) ≠ [] ∧
    demoSuccessExp ∈ queryExperiments demoTagged "p" ["success"] .anyOf ∧
    queryExperiments demoTagged "p" [] .anyOf = experimentsOf demoTagged "p" :=
  ⟨by decide,
    (claimC6_query_experiments demoTagged "p" ["success"] demoSuccessExp (by decide)).1.mpr
      ⟨by decide, "success", by decide, by decide⟩,
    (claimC6_query_experiments demoTagged "p" ["success"] demoSuccessExp (by decide)).2.2 .anyOf⟩

/-- The demo experiment after merging tag "b" into ["a"]. -/
def demoTagExp : ExperimentRec := ⟨"e", "p", none, none, none, ["a", "b"], none⟩

/-- State after `add_tags ["b"]` on the demo experiment. -/
def demoT1 : RepoState :=
  ⟨"r", storeSet demoProjExp.store (experimentPath "r" "p" "e") (.experimentE demoTagExp)⟩

theorem claimC7_witness :
    addTags demoProjExp "p" "e" ["b"] = .ok (demoTagExp, demoT1) ∧
    addTags demoT1 "p" "e" ["b"] = .ok (demoTagExp, demoT1) ∧
    (demoTagExp.tags = demoTagExp.tags ∧ demoT1 = demoT1) :=
  ⟨by rfl, by rfl,
    (claimC7_tag_idempotence demoProjExp "p" "e" ["b"]).1 demoTagExp demoT1 demoTagExp demoT1
      (by rfl) (by rfl)⟩

/-- A project with an experiment owning one child of every kind. -/
def demoFull : RepoState :=
  ⟨"r", [(childPath "r" "p" "e" .parameter "x", .parameterE ⟨"x", .vint 1⟩),
         (childPath "r" "p" "e" .feature "f1", .featureE ⟨"f1", "sepal", none⟩),
         (childPath "r" "p" "e" .metric "m", .metricE ⟨"m", .vint 3, none⟩),
         (childPath "r" "p" "e" .artifact "a1", .artifactE ⟨"a1", "model", [1, 2], none⟩),
         (childPath "r" "p" "e" .dataframe "d1", .dataframeE ⟨"d1", "df", []⟩),
         (experimentPath "r" "p" "e", .experimentE ⟨"e", "p", none, none, none, [], none⟩),
         (projectPath "r" "p", .projectE ⟨"p", none, none⟩)]⟩

/-- The same repository after deleting experiment "e". -/
def demoDeleted : RepoState :=
  ⟨"r", storeDeleteTree demoFull.store (experimentDir "r" "p" "e")⟩

theorem claimC8_witness :
    deleteExperiment demoFull "p" "e" = .ok demoDeleted ∧
    (listChildren demoDeleted "p" "e" .parameter = [] ∧
     listChildren demoDeleted "p" "e" .feature = [] ∧
     listChildren demoDeleted "p" "e" .metric = [] ∧
     listChildren demoDeleted "p" "e" .artifact = [] ∧
     listChildren demoDeleted "p" "e" .dataframe = [] ∧
     deleteExperiment demoDeleted "p" "e" = .ok demoDeleted) :=
  ⟨by rfl, by
    obtain ⟨hk, hi⟩ :=
      (claimC8_delete_subtree_idempotent demoFull "p" "e").1 demoDeleted (by rfl)
    exact ⟨hk .parameter, hk .feature, hk .metric, hk .artifact, hk .dataframe, hi⟩⟩

theorem claimC1_witness :
    experimentsOf demoProjOnly "p" = [] ∧
    demoCalls.length = 12 ∧
    ((runCreates "p" demoCalls demoProjOnly).2.all exceptIsOk) = true ∧
    ((experimentsOf (runCreates "p" demoCalls demoProjOnly).1 "p").length = 12 ∧
      ((experimentsOf (runCreates "p" demoCalls demoProjOnly).1 "p").map
        (fun e => e.id)).Nodup ∧
      ∀ mode, (queryExperiments (runCreates "p" demoCalls demoProjOnly).1 "p" [] mode).length
        = 12) :=
  ⟨by decide, by decide, by decide,
    claimC1_twelve_concurrent_creates demoProjOnly "p" demoCalls (by decide) (by decide)
      (by decide)⟩
